import Mathlib

/-!
Verification of the go-streams streaming-pipeline library against its
specification.  The data model (`Entry`, the operator function shapes, the
`Stream`/`Source`/`Sink`/`Engine` contracts) is embedded from
`src/manifest.go`.  The executable behaviour of the two processor
strategies, the stream builder and the engine is not present under `src/`
(the repository snapshot holds only the interface manifest), so those
operations are modelled from the specification text, as marked on each
definition.
-/

namespace GoStreams

/-- Entry is the data model passed between operators: a commit key, the
user-visible value, and the `Filtered` skip-marker (from `src/manifest.go`,
`type Entry struct`).  The `interface\x7b\x7d` value payload is embedded as a type
parameter `α`. -/
structure Entry (α : Type) where
  Key : String
  Value : α
  Filtered : Bool
deriving Repr, DecidableEq

/-- MapFunc transforms a value (from `src/manifest.go`: `type MapFunc
func(entry interface\x7b\x7d) interface\x7b\x7d`).  By its shape it receives and returns
only the entry's value. -/
def MapFunc (α : Type) : Type := α → α

/-- FilterFunc decides from the value alone whether an entry is kept
(from `src/manifest.go`: `type FilterFunc func(entry interface\x7b\x7d) bool`,
true = keep). -/
def FilterFunc (α : Type) : Type := α → Bool

/-- Operator is one step of a stream's chain: a filter, a map, or a sink
(sinks are identified by a number; their external behaviour is supplied
separately as oracles).  The `Stream` contract of `src/manifest.go` stores
these in the order added. -/
inductive Operator (α : Type) where
  | filter (fn : α → Bool)
  | map (fn : α → α)
  | sink (id : Nat)

/-- Event records one observable call made by a processor on its external
collaborators: `Sink.Single`, `Sink.Batch`, or `Source.CommitEntry`
(signatures from `src/manifest.go`). -/
inductive Event (α : Type) where
  | single (sinkId : Nat) (e : Entry α)
  | batch (sinkId : Nat) (es : List (Entry α))
  | commit (key : String)
deriving Repr, DecidableEq

/-- PErr is an error report sent on the error channel (`ErrorChannel` of
`src/manifest.go`), tagged with the failing stage. -/
inductive PErr where
  | sinkError
  | commitError
deriving Repr, DecidableEq

/-- Modelled from the spec: one operator application of the Direct
processor (the repository snapshot holds no processor implementation).
Per spec section 4.2: a filter returning false marks the entry
`Filtered = true`; a map is applied only to a non-filtered entry; a sink
dispatches `Sink.Single` only for non-filtered entries, and a successful
sink call is followed by `Source.CommitEntry(entry.Key)`.  `singleOk` and
`commitOk` are oracles telling whether the external call succeeds; a
failed call yields an error report instead of halting. -/
def applyOperator (singleOk : Nat → Entry α → Bool) (commitOk : String → Bool)
    (op : Operator α) (e : Entry α) : Entry α × List (Event α) × List PErr :=
  match op with
  | .filter fn =>
      (if e.Filtered then e
       else if fn e.Value then e
       else { e with Filtered := true }, [], [])
  | .map fn =>
      (if e.Filtered then e else { e with Value := fn e.Value }, [], [])
  | .sink id =>
      if e.Filtered then (e, [], [])
      else if singleOk id e then
        (e, [.single id e, .commit e.Key],
         if commitOk e.Key then [] else [.commitError])
      else (e, [.single id e], [.sinkError])

/-- Modelled from the spec: the Direct processor's handling of one entry,
applying the operators strictly in registration order (spec section 4.2). -/
def processEntry (singleOk : Nat → Entry α → Bool) (commitOk : String → Bool)
    (ops : List (Operator α)) (e : Entry α) : Entry α × List (Event α) × List PErr :=
  match ops with
  | [] => (e, [], [])
  | op :: rest =>
      let r := applyOperator singleOk commitOk op e
      let r' := processEntry singleOk commitOk rest r.1
      (r'.1, r.2.1 ++ r'.2.1, r.2.2 ++ r'.2.2)

/-- Modelled from the spec: the Direct processor's run loop (spec section
4.2) over the sequence of entries emitted by the source, in emission
order.  An entry's failure is reported on the error channel and processing
continues with the next entry. -/
def directRun (singleOk : Nat → Entry α → Bool) (commitOk : String → Bool)
    (ops : List (Operator α)) (es : List (Entry α)) : List (Event α) × List PErr :=
  match es with
  | [] => ([], [])
  | e :: rest =>
      let r := processEntry singleOk commitOk ops e
      let r' := directRun singleOk commitOk ops rest
      (r.2.1 ++ r'.1, r.2.2 ++ r'.2)

/-- The oracle for a sink/commit that always succeeds. -/
def alwaysOk2 : Nat → Entry α → Bool := fun _ _ => true

/-- The oracle for a commit that always succeeds. -/
def alwaysOk1 : String → Bool := fun _ => true

/-- Composition of a list of map functions in registration order. -/
def composeMaps (fs : List (α → α)) (v : α) : α :=
  match fs with
  | [] => v
  | f :: rest => composeMaps rest (f v)

/-- Entries delivered through `Sink.Single`, in trace order. -/
def singles : List (Event α) → List (Entry α)
  | [] => []
  | .single _ e :: rest => e :: singles rest
  | _ :: rest => singles rest

/-- Batch payloads delivered through `Sink.Batch`, in trace order. -/
def batchPayloads : List (Event α) → List (List (Entry α))
  | [] => []
  | .batch _ es :: rest => es :: batchPayloads rest
  | _ :: rest => batchPayloads rest

/-- Keys passed to `Source.CommitEntry`, in trace order. -/
def commitKeys : List (Event α) → List String
  | [] => []
  | .commit k :: rest => k :: commitKeys rest
  | _ :: rest => commitKeys rest

/-- Modelled from the spec: the Buffered processor's per-entry operator
application during accumulation (spec section 4.3: "apply Filter/Map
exactly as in the Direct Processor as each entry arrives ... but defer the
Sink call").  Sink operators contribute nothing at accumulation time. -/
def transformEntry (ops : List (Operator α)) (e : Entry α) : Entry α :=
  match ops with
  | [] => e
  | .filter fn :: rest =>
      transformEntry rest
        (if e.Filtered then e
         else if fn e.Value then e else { e with Filtered := true })
  | .map fn :: rest =>
      transformEntry rest (if e.Filtered then e else { e with Value := fn e.Value })
  | .sink _ :: rest => transformEntry rest e

/-- Splitting a list into consecutive chunks of size `K` (the last chunk
may be shorter).  Used to describe the flush boundaries of the Buffered
processor. -/
def chunksOf (K : Nat) : List β → List (List β)
  | [] => []
  | x :: xs => (x :: xs.take (K - 1)) :: chunksOf K (xs.drop (K - 1))
termination_by l => l.length
decreasing_by
  simp only [List.length_cons, List.length_drop]
  exact Nat.lt_succ_of_le (Nat.sub_le _ _)

/-- Modelled from the spec: the sink/commit calls of one Buffered flush
(spec section 4.3): the outgoing batch skips every entry with
`Filtered = true`; after the `Sink.Batch` call succeeds,
`Source.CommitEntry(key)` is called for every entry of the flushed
collection, filtered or not; a failed batch call produces no commits. -/
def flushTrace (batchOk : List (Entry α) → Bool) (sid : Nat)
    (buf : List (Entry α)) : List (Event α) :=
  let survivors := buf.filter (fun e => !e.Filtered)
  if batchOk survivors then
    Event.batch sid survivors :: buf.map (fun e => Event.commit e.Key)
  else [Event.batch sid survivors]

/-- Modelled from the spec: the error reports of one Buffered flush.  A
failed `Sink.Batch` is reported on the error channel; each failed commit
is reported as well. -/
def flushErrs (batchOk : List (Entry α) → Bool) (commitOk : String → Bool)
    (buf : List (Entry α)) : List PErr :=
  let survivors := buf.filter (fun e => !e.Filtered)
  if batchOk survivors then
    (buf.filter (fun e => !(commitOk e.Key))).map (fun _ => PErr.commitError)
  else [PErr.sinkError]

/-- Modelled from the spec: the Buffered processor's run loop (spec
section 4.3) carrying the in-order accumulation buffer.  Each arriving
entry is transformed per-entry and appended; when the buffer reaches
`bufferSize` entries (filtered or not) one flush is performed; a final
incomplete buffer is flushed when the source ends (the time-based
`flushInterval` trigger is abstracted away).  A flush that errors does not
halt the loop. -/
def bufferedLoop (K : Nat) (sid : Nat) (batchOk : List (Entry α) → Bool)
    (commitOk : String → Bool) (ops : List (Operator α)) :
    List (Entry α) → List (Entry α) → List (Event α) × List PErr
  | buf, [] =>
      if buf.isEmpty then ([], [])
      else (flushTrace batchOk sid buf, flushErrs batchOk commitOk buf)
  | buf, e :: rest =>
      let buf' := buf ++ [transformEntry ops e]
      if K ≤ buf'.length then
        let r := bufferedLoop K sid batchOk commitOk ops [] rest
        (flushTrace batchOk sid buf' ++ r.1, flushErrs batchOk commitOk buf' ++ r.2)
      else bufferedLoop K sid batchOk commitOk ops buf' rest

/-- Modelled from the spec: the Buffered processor run over a full source
emission sequence, starting from an empty buffer. -/
def bufferedRun (K : Nat) (sid : Nat) (batchOk : List (Entry α) → Bool)
    (commitOk : String → Bool) (ops : List (Operator α)) (es : List (Entry α)) :
    List (Event α) × List PErr :=
  bufferedLoop K sid batchOk commitOk ops [] es

/-- Recognizer for filter operators. -/
def Operator.isFilter : Operator α → Bool
  | .filter _ => true
  | _ => false

/-- Discipline of the Direct processor's trace required by the spec: a
commit appears only immediately after a `Sink.Single` call for the same
entry that the sink oracle accepted. -/
def commitAfterSingleOk (singleOk : Nat → Entry α → Bool) : List (Event α) → Bool
  | [] => true
  | .single id e :: .commit k :: rest =>
      (k == e.Key && singleOk id e) && commitAfterSingleOk singleOk rest
  | .commit _ :: _ => false
  | _ :: rest => commitAfterSingleOk singleOk rest

/-- Modelled from the spec: a registered stream as the Engine sees it: the
bound source's unique `Name()` and the ordered operator chain
(`GetHandlers`).  The concrete stream implementation is absent from the
repository snapshot. -/
structure StreamModel (α : Type) where
  sourceName : String
  handlers : List (Operator α)

/-- GetSource of the stream contract, returning the bound source (its
name, which is what the Engine compares). -/
def StreamModel.getSource (s : StreamModel α) : String := s.sourceName

/-- GetHandlers of the stream contract, returning the operator sequence in
the order added. -/
def StreamModel.getHandlers (s : StreamModel α) : List (Operator α) := s.handlers

/-- Modelled from the spec: the fluent `Filter` builder call, appending
one filter operator. -/
def StreamModel.Filter (s : StreamModel α) (fn : α → Bool) : StreamModel α :=
  { s with handlers := s.handlers ++ [Operator.filter fn] }

/-- Modelled from the spec: the fluent `Map` builder call, appending one
map operator. -/
def StreamModel.Map (s : StreamModel α) (fn : α → α) : StreamModel α :=
  { s with handlers := s.handlers ++ [Operator.map fn] }

/-- Modelled from the spec: the fluent `Sink` builder call, appending one
sink operator. -/
def StreamModel.Sink (s : StreamModel α) (id : Nat) : StreamModel α :=
  { s with handlers := s.handlers ++ [Operator.sink id] }

/-- One builder call in a chain. -/
inductive BuildCall (α : Type) where
  | filter (fn : α → Bool)
  | map (fn : α → α)
  | sink (id : Nat)

/-- The operator a builder call appends. -/
def BuildCall.toOperator : BuildCall α → Operator α
  | .filter fn => Operator.filter fn
  | .map fn => Operator.map fn
  | .sink id => Operator.sink id

/-- Applying a sequence of builder calls to a stream, in order. -/
def applyCalls (s : StreamModel α) : List (BuildCall α) → StreamModel α
  | [] => s
  | .filter fn :: rest => applyCalls (s.Filter fn) rest
  | .map fn :: rest => applyCalls (s.Map fn) rest
  | .sink id :: rest => applyCalls (s.Sink id) rest

/-- Name-collision check inside one `Add` call: some stream's source name
occurs again later in the same list. -/
def hasDupName : List (StreamModel α) → Bool
  | [] => false
  | s :: rest => (rest.map StreamModel.getSource).contains s.getSource || hasDupName rest

/-- The duplicate-source error message returned synchronously by Add. -/
def duplicateSourceMsg : String := "stream with the same source name already exists"

/-- Modelled from the spec: `Engine.Add` (spec section 4.4): fails with a
duplicate-source error if any new stream's source name collides with an
already-registered stream's source name (or with another stream of the
same call), leaving the registered set unchanged; otherwise synchronously
registers all the streams.  The concrete engine implementation is absent
from the repository snapshot. -/
def engineAdd (regs new : List (StreamModel α)) :
    Except String (List (StreamModel α)) :=
  if new.any (fun s => (regs.map StreamModel.getSource).contains s.getSource)
      || hasDupName new then
    Except.error duplicateSourceMsg
  else
    Except.ok (regs ++ new)

/-- Engine lifecycle states (spec section 3: `Created`, `Running`,
`Stopped`). -/
inductive EngState where
  | created
  | running
  | stopped
deriving Repr, DecidableEq

/-- Observable engine-level actions: `Start()` launching the sources,
delivery of an entry to a sink by a running stream, and `Stop()`. -/
inductive EngAction where
  | start
  | deliver
  | stop
deriving Repr, DecidableEq

/-- Modelled from the spec: the engine lifecycle state machine (spec
sections 3 and 4.4): Created to Running on `Start()`, Running to Stopped
on `Stop()`; entries are delivered to sinks only while Running; Stopped is
terminal, so no action is enabled there (sources are never restarted). -/
def engStep : EngState → EngAction → Option EngState
  | .created, .start => some .running
  | .running, .deliver => some .running
  | .running, .stop => some .stopped
  | _, _ => none

/-- Running the engine state machine over a sequence of actions; `none`
when some action is not enabled. -/
def engRun : EngState → List EngAction → Option EngState
  | s, [] => some s
  | s, a :: rest =>
      match engStep s a with
      | none => none
      | some s' => engRun s' rest

/-- The oracle for a batch sink that always succeeds. -/
def alwaysOkBatch : List (Entry α) → Bool := fun _ => true

lemma singles_append (t₁ t₂ : List (Event α)) :
    singles (t₁ ++ t₂) = singles t₁ ++ singles t₂ := by
  induction t₁ with
  | nil => rfl
  | cons ev rest ih => cases ev <;> simp [singles, ih]

lemma batchPayloads_append (t₁ t₂ : List (Event α)) :
    batchPayloads (t₁ ++ t₂) = batchPayloads t₁ ++ batchPayloads t₂ := by
  induction t₁ with
  | nil => rfl
  | cons ev rest ih => cases ev <;> simp [batchPayloads, ih]

lemma commitKeys_append (t₁ t₂ : List (Event α)) :
    commitKeys (t₁ ++ t₂) = commitKeys t₁ ++ commitKeys t₂ := by
  induction t₁ with
  | nil => rfl
  | cons ev rest ih => cases ev <;> simp [commitKeys, ih]

/-- A non-filtered entry run through a chain of map operators only:
no events, no errors, value replaced by the composed maps. -/
lemma processEntry_maps (singleOk : Nat → Entry α → Bool) (commitOk : String → Bool)
    (fs : List (α → α)) (e : Entry α) (h : e.Filtered = false) :
    processEntry singleOk commitOk (fs.map Operator.map) e =
      ({ e with Value := composeMaps fs e.Value }, [], []) := by
  induction fs generalizing e with
  | nil => simp [processEntry, composeMaps]
  | cons f rest ih =>
      have hop : applyOperator singleOk commitOk (Operator.map f) e
          = ({ e with Value := f e.Value }, [], []) := by
        simp [applyOperator, h]
      simp only [List.map_cons, processEntry, hop]
      rw [ih { e with Value := f e.Value } h]
      simp [composeMaps]

/-- A non-filtered entry reaching a sink with all calls succeeding:
one `Single` call followed by one commit of the entry's key. -/
lemma processEntry_sink_ok (e : Entry α) (id : Nat) (h : e.Filtered = false) :
    processEntry alwaysOk2 alwaysOk1 [Operator.sink id] e =
      (e, [.single id e, .commit e.Key], []) := by
  simp [processEntry, applyOperator, h, alwaysOk2, alwaysOk1]

lemma chunksOf_nil (K : Nat) : chunksOf K ([] : List β) = [] := by
  simp [chunksOf]

lemma chunksOf_cons_eq (hK : 0 < K) (x : β) (xs : List β) :
    chunksOf K (x :: xs) = (x :: xs).take K :: chunksOf K ((x :: xs).drop K) := by
  obtain ⟨k, rfl⟩ := Nat.exists_eq_succ_of_ne_zero (Nat.pos_iff_ne_zero.mp hK)
  simp [chunksOf, List.take_succ_cons, List.drop_succ_cons]

lemma chunksOf_eq_take_drop (hK : 0 < K) (l : List β) (hne : l ≠ []) :
    chunksOf K l = l.take K :: chunksOf K (l.drop K) := by
  cases l with
  | nil => exact absurd rfl hne
  | cons x xs => exact chunksOf_cons_eq hK x xs

lemma chunksOf_of_length_le (hK : 0 < K) (l : List β) (hne : l ≠ [])
    (hlen : l.length ≤ K) : chunksOf K l = [l] := by
  rw [chunksOf_eq_take_drop hK l hne, List.take_of_length_le hlen,
    List.drop_eq_nil_of_le hlen, chunksOf_nil]

lemma chunksOf_append_of_length_eq (hK : 0 < K) (l m : List β)
    (hl : l.length = K) : chunksOf K (l ++ m) = l :: chunksOf K m := by
  have hne : l ++ m ≠ [] := by
    cases l with
    | nil => simp at hl; omega
    | cons a b => simp
  rw [chunksOf_eq_take_drop hK _ hne, ← hl, List.take_left, List.drop_left]

lemma chunksOf_length (hK : 0 < K) (l : List β) :
    (chunksOf K l).length = (l.length + K - 1) / K := by
  obtain ⟨n, hn⟩ : ∃ n, l.length ≤ n := ⟨l.length, le_refl _⟩
  induction n generalizing l with
  | zero =>
      obtain rfl := List.length_eq_zero.mp (Nat.le_zero.mp hn)
      rw [chunksOf_nil]
      simp only [List.length_nil, Nat.zero_add]
      exact (Nat.div_eq_of_lt (by omega)).symm
  | succ n ih =>
      cases l with
      | nil =>
          rw [chunksOf_nil]
          simp only [List.length_nil, Nat.zero_add]
          exact (Nat.div_eq_of_lt (by omega)).symm
      | cons x xs =>
          have hxs : xs.length ≤ n := by
            simpa using hn
          have hd : ((x :: xs).drop K).length ≤ n := by
            rw [List.length_drop, List.length_cons]
            omega
          rw [chunksOf_cons_eq hK, List.length_cons, ih _ hd,
            List.length_drop, List.length_cons]
          rcases le_or_lt K (xs.length + 1) with h | h
          · have e1 : xs.length + 1 - K + K - 1 = xs.length := by omega
            have e2 : xs.length + 1 + K - 1 = xs.length + K := by omega
            rw [e1, e2, Nat.add_div_right _ hK]
          · have e1 : xs.length + 1 - K = 0 := by omega
            have e2 : xs.length + 1 + K - 1 = xs.length + K := by omega
            rw [e1, e2]
            rw [Nat.div_eq_of_lt (by omega)]
            exact (Nat.div_eq_of_lt_le (by omega) (by omega)).symm

lemma chunksOf_flatten (hK : 0 < K) (l : List β) :
    (chunksOf K l).flatten = l := by
  obtain ⟨n, hn⟩ : ∃ n, l.length ≤ n := ⟨l.length, le_refl _⟩
  induction n generalizing l with
  | zero =>
      obtain rfl := List.length_eq_zero.mp (Nat.le_zero.mp hn)
      rw [chunksOf_nil]; rfl
  | succ n ih =>
      cases l with
      | nil => rw [chunksOf_nil]; rfl
      | cons x xs =>
          have hd : ((x :: xs).drop K).length ≤ n := by
            rw [List.length_drop, List.length_cons]
            have hxs : xs.length ≤ n := by simpa using hn
            omega
          rw [chunksOf_cons_eq hK, List.flatten_cons, ih _ hd,
            List.take_append_drop]

lemma chunksOf_mem_mem (hK : 0 < K) (l : List β) (c : List β)
    (hc : c ∈ chunksOf K l) (x : β) (hx : x ∈ c) : x ∈ l := by
  rw [← chunksOf_flatten hK l]
  exact List.mem_flatten.mpr ⟨c, hc, hx⟩

lemma chunksOf_ne_nil_of_mem (hK : 0 < K) (l : List β) :
    ∀ c ∈ chunksOf K l, c ≠ [] := by
  obtain ⟨n, hn⟩ : ∃ n, l.length ≤ n := ⟨l.length, le_refl _⟩
  induction n generalizing l with
  | zero =>
      obtain rfl := List.length_eq_zero.mp (Nat.le_zero.mp hn)
      rw [chunksOf_nil]; intro c hc; cases hc
  | succ n ih =>
      cases l with
      | nil => rw [chunksOf_nil]; intro c hc; cases hc
      | cons x xs =>
          have hd : ((x :: xs).drop K).length ≤ n := by
            rw [List.length_drop, List.length_cons]
            have hxs : xs.length ≤ n := by simpa using hn
            omega
          rw [chunksOf_cons_eq hK]
          intro c hc
          rcases List.mem_cons.mp hc with rfl | hc'
          · obtain ⟨k, rfl⟩ := Nat.exists_eq_succ_of_ne_zero (Nat.pos_iff_ne_zero.mp hK)
            simp [List.take_succ_cons]
          · exact ih _ hd c hc'

lemma chunksOf_dropLast_length (hK : 0 < K) (l : List β) :
    ∀ c ∈ (chunksOf K l).dropLast, c.length = K := by
  obtain ⟨n, hn⟩ : ∃ n, l.length ≤ n := ⟨l.length, le_refl _⟩
  induction n generalizing l with
  | zero =>
      obtain rfl := List.length_eq_zero.mp (Nat.le_zero.mp hn)
      rw [chunksOf_nil]; intro c hc; cases hc
  | succ n ih =>
      cases l with
      | nil => rw [chunksOf_nil]; intro c hc; cases hc
      | cons x xs =>
          have hd : ((x :: xs).drop K).length ≤ n := by
            rw [List.length_drop, List.length_cons]
            have hxs : xs.length ≤ n := by simpa using hn
            omega
          rw [chunksOf_cons_eq hK]
          by_cases hdrop : (x :: xs).drop K = []
          · rw [hdrop, chunksOf_nil]
            intro c hc; cases hc
          · have hchunks : chunksOf K ((x :: xs).drop K) ≠ [] := by
              rw [chunksOf_eq_take_drop hK _ hdrop]
              simp
            rw [List.dropLast_cons_of_ne_nil hchunks]
            intro c hc
            rcases List.mem_cons.mp hc with rfl | hc'
            · have hlt : K < (x :: xs).length := by
                by_contra hcon
                exact hdrop (List.drop_eq_nil_of_le (by omega))
              rw [List.length_take]
              omega
            · exact ih _ hd c hc'

lemma chunksOf_length_mem_of_mod_eq_zero (hK : 0 < K) (l : List β)
    (hmod : l.length % K = 0) : ∀ c ∈ chunksOf K l, c.length = K := by
  obtain ⟨n, hn⟩ : ∃ n, l.length ≤ n := ⟨l.length, le_refl _⟩
  induction n generalizing l with
  | zero =>
      obtain rfl := List.length_eq_zero.mp (Nat.le_zero.mp hn)
      rw [chunksOf_nil]; intro c hc; cases hc
  | succ n ih =>
      cases l with
      | nil => rw [chunksOf_nil]; intro c hc; cases hc
      | cons x xs =>
          have hKle : K ≤ (x :: xs).length := by
            by_contra hcon
            have : (x :: xs).length % K = (x :: xs).length :=
              Nat.mod_eq_of_lt (by omega)
            rw [this] at hmod
            simp at hmod
          have hd : ((x :: xs).drop K).length ≤ n := by
            rw [List.length_drop, List.length_cons]
            have hxs : xs.length ≤ n := by simpa using hn
            omega
          have hdmod : ((x :: xs).drop K).length % K = 0 := by
            rw [List.length_drop, ← Nat.mod_eq_sub_mod hKle]
            exact hmod
          rw [chunksOf_cons_eq hK]
          intro c hc
          rcases List.mem_cons.mp hc with rfl | hc'
          · rw [List.length_take]; omega
          · exact ih _ hdmod hd c hc'

lemma chunksOf_getLast?_length (hK : 0 < K) (l : List β) (hne : l ≠ []) :
    ∃ c, (chunksOf K l).getLast? = some c ∧
      c.length = if l.length % K = 0 then K else l.length % K := by
  obtain ⟨n, hn⟩ : ∃ n, l.length ≤ n := ⟨l.length, le_refl _⟩
  induction n generalizing l with
  | zero =>
      obtain rfl := List.length_eq_zero.mp (Nat.le_zero.mp hn)
      exact absurd rfl hne
  | succ n ih =>
      cases l with
      | nil => exact absurd rfl hne
      | cons x xs =>
          have hd : ((x :: xs).drop K).length ≤ n := by
            rw [List.length_drop, List.length_cons]
            have hxs : xs.length ≤ n := by simpa using hn
            omega
          rw [chunksOf_cons_eq hK]
          by_cases hdrop : (x :: xs).drop K = []
          · have hlen : (x :: xs).length ≤ K := by
              by_contra hcon
              have : (x :: xs).drop K ≠ [] := by
                intro h
                have := List.drop_eq_nil_iff.mp h
                omega
              exact this hdrop
            rw [hdrop, chunksOf_nil, List.take_of_length_le hlen]
            refine ⟨x :: xs, List.getLast?_singleton _, ?_⟩
            rcases eq_or_lt_of_le hlen with heq | hlt
            · rw [heq]; simp [Nat.mod_self]
            · rw [Nat.mod_eq_of_lt hlt, if_neg (by simp)]
          · obtain ⟨c, hc, hclen⟩ := ih _ hdrop hd
            refine ⟨c, ?_, ?_⟩
            · rw [List.getLast?_cons, hc]; rfl
            · have hKle : K ≤ (x :: xs).length := by
                by_contra hcon
                exact hdrop (List.drop_eq_nil_of_le (by omega))
              rw [List.length_drop] at hclen
              rw [hclen, ← Nat.mod_eq_sub_mod hKle]

lemma processEntry_append (s : Nat → Entry α → Bool) (c : String → Bool)
    (ops₁ ops₂ : List (Operator α)) (e : Entry α) :
    processEntry s c (ops₁ ++ ops₂) e =
      ((processEntry s c ops₂ (processEntry s c ops₁ e).1).1,
       (processEntry s c ops₁ e).2.1 ++ (processEntry s c ops₂ (processEntry s c ops₁ e).1).2.1,
       (processEntry s c ops₁ e).2.2 ++ (processEntry s c ops₂ (processEntry s c ops₁ e).1).2.2) := by
  induction ops₁ generalizing e with
  | nil => simp [processEntry]
  | cons op rest ih =>
      simp only [List.cons_append, processEntry, List.append_eq]
      rw [ih]
      simp [List.append_assoc]

lemma processEntry_mapChain (fs : List (α → α)) (sid : Nat) (e : Entry α)
    (h : e.Filtered = false) :
    processEntry alwaysOk2 alwaysOk1 (fs.map Operator.map ++ [Operator.sink sid]) e =
      ({ e with Value := composeMaps fs e.Value },
       [.single sid { e with Value := composeMaps fs e.Value }, .commit e.Key], []) := by
  rw [processEntry_append, processEntry_maps alwaysOk2 alwaysOk1 fs e h]
  have h2 : ({ e with Value := composeMaps fs e.Value } : Entry α).Filtered = false := h
  rw [processEntry_sink_ok _ sid h2]
  rfl

lemma directRun_mapChain (fs : List (α → α)) (sid : Nat) (es : List (Entry α))
    (h : ∀ e ∈ es, e.Filtered = false) :
    directRun alwaysOk2 alwaysOk1 (fs.map Operator.map ++ [Operator.sink sid]) es =
      (es.flatMap (fun e =>
        [.single sid { e with Value := composeMaps fs e.Value }, .commit e.Key]), []) := by
  induction es with
  | nil => simp [directRun]
  | cons e rest ih =>
      simp only [directRun, List.flatMap_cons]
      rw [processEntry_mapChain fs sid e (h e (List.mem_cons_self e rest)),
        ih (fun x hx => h x (List.mem_cons_of_mem e hx))]
      rfl

lemma directRun_append (s : Nat → Entry α → Bool) (c : String → Bool)
    (ops : List (Operator α)) (es₁ es₂ : List (Entry α)) :
    directRun s c ops (es₁ ++ es₂) =
      ((directRun s c ops es₁).1 ++ (directRun s c ops es₂).1,
       (directRun s c ops es₁).2 ++ (directRun s c ops es₂).2) := by
  induction es₁ with
  | nil => simp [directRun]
  | cons e rest ih =>
      simp only [List.cons_append, directRun, List.append_eq]
      rw [ih]
      simp [List.append_assoc]

lemma batchPayloads_commits (l : List (Entry α)) :
    batchPayloads (l.map (fun e => Event.commit (α := α) e.Key)) = [] := by
  induction l with
  | nil => rfl
  | cons e rest ih => simpa [batchPayloads]

lemma batchPayloads_flushTrace (bOk : List (Entry α) → Bool) (sid : Nat)
    (c : List (Entry α)) :
    batchPayloads (flushTrace bOk sid c) = [c.filter (fun e => !e.Filtered)] := by
  by_cases h : bOk (c.filter (fun e => !e.Filtered))
  · simp [flushTrace, h, batchPayloads, batchPayloads_commits]
  · simp [flushTrace, h, batchPayloads]

lemma batchPayloads_flatMap_flushTrace (bOk : List (Entry α) → Bool) (sid : Nat)
    (cs : List (List (Entry α))) :
    batchPayloads (cs.flatMap (flushTrace bOk sid)) =
      cs.map (fun c => c.filter (fun e => !e.Filtered)) := by
  induction cs with
  | nil => rfl
  | cons c rest ih =>
      rw [List.flatMap_cons, batchPayloads_append, batchPayloads_flushTrace, ih]
      rfl

lemma transformEntry_not_filtered (ops : List (Operator α)) (e : Entry α)
    (hops : ∀ op ∈ ops, op.isFilter = false) (h : e.Filtered = false) :
    (transformEntry ops e).Filtered = false := by
  induction ops generalizing e with
  | nil => simpa [transformEntry]
  | cons op rest ih =>
      cases op with
      | filter fn =>
          have := hops _ (List.mem_cons_self _ _)
          simp [Operator.isFilter] at this
      | map fn =>
          simp only [transformEntry, h, Bool.false_eq_true, if_false]
          exact ih _ (fun o ho => hops o (List.mem_cons_of_mem _ ho)) (by simp [h])
      | sink id =>
          simp only [transformEntry]
          exact ih e (fun o ho => hops o (List.mem_cons_of_mem _ ho)) h

lemma transformEntry_filtered (ops : List (Operator α)) (e : Entry α)
    (h : e.Filtered = true) : (transformEntry ops e).Filtered = true := by
  induction ops generalizing e with
  | nil => simpa [transformEntry]
  | cons op rest ih =>
      cases op with
      | filter fn => simp only [transformEntry, h, if_true]; exact ih e h
      | map fn => simp only [transformEntry, h, if_true]; exact ih e h
      | sink id => simp only [transformEntry]; exact ih e h

lemma commitAfterSingleOk_applyOperator (s : Nat → Entry α → Bool)
    (c : String → Bool) (op : Operator α) (e : Entry α) (rest : List (Event α))
    (h : commitAfterSingleOk s rest = true) :
    commitAfterSingleOk s ((applyOperator s c op e).2.1 ++ rest) = true := by
  cases op with
  | filter fn => simpa [applyOperator]
  | map fn => simpa [applyOperator]
  | sink id =>
      by_cases hf : e.Filtered
      · simpa [applyOperator, hf]
      · by_cases hs : s id e
        · simpa [applyOperator, hf, hs, commitAfterSingleOk]
        · cases rest with
          | nil => simp [applyOperator, hf, hs, commitAfterSingleOk]
          | cons ev rest' =>
              cases ev with
              | single id2 e2 =>
                  simpa [applyOperator, hf, hs, commitAfterSingleOk]
              | batch id2 es2 =>
                  simpa [applyOperator, hf, hs, commitAfterSingleOk]
              | commit k =>
                  simp [commitAfterSingleOk] at h

lemma commitAfterSingleOk_processEntry (s : Nat → Entry α → Bool)
    (c : String → Bool) (ops : List (Operator α)) (e : Entry α)
    (rest : List (Event α)) (h : commitAfterSingleOk s rest = true) :
    commitAfterSingleOk s ((processEntry s c ops e).2.1 ++ rest) = true := by
  induction ops generalizing e rest with
  | nil => simpa [processEntry]
  | cons op ops' ih =>
      simp only [processEntry, List.append_assoc]
      exact commitAfterSingleOk_applyOperator s c op e _ (ih _ _ h)

lemma commitAfterSingleOk_directRun (s : Nat → Entry α → Bool)
    (c : String → Bool) (ops : List (Operator α)) (es : List (Entry α)) :
    commitAfterSingleOk s (directRun s c ops es).1 = true := by
  induction es with
  | nil => rfl
  | cons e rest ih =>
      simp only [directRun]
      exact commitAfterSingleOk_processEntry s c ops e _ ih

lemma contains_name_iff (l : List String) (a : String) :
    l.contains a = true ↔ a ∈ l := by
  rw [List.contains_iff_exists_mem_beq]
  constructor
  · rintro ⟨b, hb, hbeq⟩
    rwa [show a = b from by simpa using hbeq]
  · intro ha
    exact ⟨a, ha, by simp⟩

lemma hasDupName_eq_false_iff (l : List (StreamModel α)) :
    hasDupName l = false ↔ (l.map StreamModel.getSource).Nodup := by
  induction l with
  | nil => simp [hasDupName]
  | cons s rest ih =>
      simp only [hasDupName, List.map_cons, List.nodup_cons, Bool.or_eq_false_iff, ih]
      constructor
      · rintro ⟨h1, h2⟩
        refine ⟨fun hmem => ?_, h2⟩
        rw [(contains_name_iff _ _).mpr hmem] at h1; cases h1
      · rintro ⟨h1, h2⟩
        refine ⟨?_, h2⟩
        cases hcc : (rest.map StreamModel.getSource).contains s.getSource
        · rfl
        · exact absurd ((contains_name_iff _ _).mp hcc) h1

lemma bufferedLoop_eq_chunks (hK : 0 < K) (sid : Nat)
    (bOk : List (Entry α) → Bool) (cOk : String → Bool)
    (ops : List (Operator α)) :
    ∀ (es buf : List (Entry α)), buf.length < K →
      bufferedLoop K sid bOk cOk ops buf es =
        ((chunksOf K (buf ++ es.map (transformEntry ops))).flatMap (flushTrace bOk sid),
         (chunksOf K (buf ++ es.map (transformEntry ops))).flatMap (flushErrs bOk cOk)) := by
  intro es
  induction es with
  | nil =>
      intro buf hbuf
      by_cases hb : buf = []
      · subst hb
        simp [bufferedLoop, chunksOf_nil]
      · have hbe : buf.isEmpty = false := by
          simpa [List.isEmpty_iff] using hb
        simp only [bufferedLoop, hbe, Bool.false_eq_true, if_false,
          List.map_nil, List.append_nil]
        rw [chunksOf_of_length_le hK buf hb (le_of_lt hbuf)]
        simp [List.flatMap_cons]
  | cons e rest ih =>
      intro buf hbuf
      simp only [bufferedLoop, List.map_cons]
      by_cases hfull : K ≤ (buf ++ [transformEntry ops e]).length
      · rw [if_pos hfull]
        have hlen : (buf ++ [transformEntry ops e]).length = K := by
          simp only [List.length_append, List.length_cons, List.length_nil] at hfull ⊢
          omega
        have heq : buf ++ transformEntry ops e :: rest.map (transformEntry ops)
            = (buf ++ [transformEntry ops e]) ++ rest.map (transformEntry ops) := by
          simp
        rw [ih [] (by simpa using hK)]
        rw [heq, chunksOf_append_of_length_eq hK _ _ hlen]
        simp [List.flatMap_cons]
      · rw [if_neg hfull]
        rw [ih (buf ++ [transformEntry ops e])
          (by simp only [List.length_append, List.length_cons, List.length_nil] at hfull ⊢; omega)]
        have heq : (buf ++ [transformEntry ops e]) ++ rest.map (transformEntry ops)
            = buf ++ transformEntry ops e :: rest.map (transformEntry ops) := by
          simp
        rw [heq]

lemma bufferedRun_eq_chunks (hK : 0 < K) (sid : Nat)
    (bOk : List (Entry α) → Bool) (cOk : String → Bool)
    (ops : List (Operator α)) (es : List (Entry α)) :
    bufferedRun K sid bOk cOk ops es =
      ((chunksOf K (es.map (transformEntry ops))).flatMap (flushTrace bOk sid),
       (chunksOf K (es.map (transformEntry ops))).flatMap (flushErrs bOk cOk)) := by
  have := bufferedLoop_eq_chunks hK sid bOk cOk ops es [] (by simpa using hK)
  simpa [bufferedRun] using this

lemma singles_flatMap_mapChain (fs : List (α → α)) (sid : Nat) (es : List (Entry α)) :
    singles (es.flatMap (fun e =>
        [Event.single sid { e with Value := composeMaps fs e.Value }, Event.commit e.Key]))
      = es.map (fun e => { e with Value := composeMaps fs e.Value }) := by
  induction es with
  | nil => rfl
  | cons e rest ih =>
      rw [List.flatMap_cons, singles_append, ih]
      rfl

lemma forall₂_map_self {R : γ → β → Prop} (f : β → γ) (l : List β)
    (h : ∀ a, R (f a) a) : List.Forall₂ R (l.map f) l := by
  induction l with
  | nil => exact List.Forall₂.nil
  | cons a l ih => exact List.Forall₂.cons (h a) ih

lemma chunks_filter_eq_self (hK : 0 < K) (ops : List (Operator α))
    (es : List (Entry α)) (hops : ∀ op ∈ ops, op.isFilter = false)
    (hes : ∀ e ∈ es, e.Filtered = false) :
    ∀ c ∈ chunksOf K (es.map (transformEntry ops)),
      c.filter (fun e => !e.Filtered) = c := by
  intro c hc
  rw [List.filter_eq_self]
  intro e he
  have hmem : e ∈ es.map (transformEntry ops) :=
    chunksOf_mem_mem hK _ c hc e he
  rcases List.mem_map.mp hmem with ⟨x, hx, rfl⟩
  rw [Bool.not_eq_true']
  exact transformEntry_not_filtered ops x hops (hes x hx)

lemma applyCalls_spec (s : StreamModel α) (cs : List (BuildCall α)) :
    (applyCalls s cs).getHandlers = s.getHandlers ++ cs.map BuildCall.toOperator ∧
    (applyCalls s cs).getSource = s.getSource := by
  induction cs generalizing s with
  | nil => simp [applyCalls]
  | cons call rest ih =>
      cases call with
      | filter fn =>
          refine ⟨?_, ?_⟩
          · rw [show applyCalls s (BuildCall.filter fn :: rest)
                = applyCalls (s.Filter fn) rest from rfl, (ih _).1]
            simp [StreamModel.Filter, StreamModel.getHandlers, BuildCall.toOperator]
          · rw [show applyCalls s (BuildCall.filter fn :: rest)
                = applyCalls (s.Filter fn) rest from rfl, (ih _).2]
            rfl
      | map fn =>
          refine ⟨?_, ?_⟩
          · rw [show applyCalls s (BuildCall.map fn :: rest)
                = applyCalls (s.Map fn) rest from rfl, (ih _).1]
            simp [StreamModel.Map, StreamModel.getHandlers, BuildCall.toOperator]
          · rw [show applyCalls s (BuildCall.map fn :: rest)
                = applyCalls (s.Map fn) rest from rfl, (ih _).2]
            rfl
      | sink id =>
          refine ⟨?_, ?_⟩
          · rw [show applyCalls s (BuildCall.sink id :: rest)
                = applyCalls (s.Sink id) rest from rfl, (ih _).1]
            simp [StreamModel.Sink, StreamModel.getHandlers, BuildCall.toOperator]
          · rw [show applyCalls s (BuildCall.sink id :: rest)
                = applyCalls (s.Sink id) rest from rfl, (ih _).2]
            rfl

lemma engineAdd_check_iff (regs new : List (StreamModel α))
    (h : (regs.map StreamModel.getSource).Nodup) :
    (new.any (fun s => (regs.map StreamModel.getSource).contains s.getSource)
        || hasDupName new) = false
      ↔ ((regs ++ new).map StreamModel.getSource).Nodup := by
  rw [List.map_append, List.nodup_append, Bool.or_eq_false_iff]
  constructor
  · rintro ⟨h1, h2⟩
    refine ⟨h, (hasDupName_eq_false_iff new).mp h2, ?_⟩
    intro a ha hanew
    rcases List.mem_map.mp hanew with ⟨s, hs, rfl⟩
    have hall := List.any_eq_false.mp h1 s hs
    exact hall ((contains_name_iff _ _).mpr ha)
  · rintro ⟨hr, hn, hd⟩
    refine ⟨?_, (hasDupName_eq_false_iff new).mpr hn⟩
    rw [List.any_eq_false]
    intro s hs hcc
    exact hd ((contains_name_iff _ _).mp hcc) (List.mem_map.mpr ⟨s, hs, rfl⟩)

/-- C1: for a Direct-Processor stream whose operator chain is only Map
operators (plus the terminal sink) and no Filter, a sequence of N
source-emitted entries produces exactly N `Sink.Single` calls, in the
source's emission order, each delivering the composition of the registered
map functions (in registration order) applied to the entry's original
value. -/
theorem direct_map_only_delivers_all_in_order (fs : List (α → α)) (sid : Nat)
    (es : List (Entry α)) (h : ∀ e ∈ es, e.Filtered = false) :
    singles (directRun alwaysOk2 alwaysOk1
        (fs.map Operator.map ++ [Operator.sink sid]) es).1
      = es.map (fun e => { e with Value := composeMaps fs e.Value }) ∧
    (singles (directRun alwaysOk2 alwaysOk1
        (fs.map Operator.map ++ [Operator.sink sid]) es).1).length = es.length := by
  rw [directRun_mapChain fs sid es h]
  rw [show ((es.flatMap fun e =>
      [Event.single sid { e with Value := composeMaps fs e.Value },
       Event.commit e.Key]), ([] : List PErr)).1
    = es.flatMap fun e =>
      [Event.single sid { e with Value := composeMaps fs e.Value },
       Event.commit e.Key] from rfl]
  rw [singles_flatMap_mapChain]
  exact ⟨rfl, List.length_map es _⟩

theorem direct_map_only_witness :
    (∀ e ∈ ([⟨"1", (1 : Int), false⟩, ⟨"2", 2, false⟩] : List (Entry Int)),
        e.Filtered = false) ∧
    (singles (directRun alwaysOk2 alwaysOk1
        (([fun v => v + 1] : List (Int → Int)).map Operator.map ++ [Operator.sink 0])
        [⟨"1", (1 : Int), false⟩, ⟨"2", 2, false⟩]).1
      = [⟨"1", (2 : Int), false⟩, ⟨"2", 3, false⟩]) :=
  ⟨by decide,
   ((direct_map_only_delivers_all_in_order [fun v => v + 1] 0
      [⟨"1", (1 : Int), false⟩, ⟨"2", 2, false⟩] (by decide)).1).trans (by decide)⟩

/-- C2: for a Buffered-Processor stream with `bufferSize = K` and no entry
ever filtered, N entries yield exactly ceil(N/K) `Sink.Batch` calls; every
batch holds exactly K entries except possibly the final one, which holds
N mod K entries when N is not a multiple of K. -/
theorem buffered_batch_count_and_sizes (K sid : Nat) (ops : List (Operator α))
    (es : List (Entry α)) (hK : 0 < K)
    (hops : ∀ op ∈ ops, op.isFilter = false)
    (hes : ∀ e ∈ es, e.Filtered = false) :
    (batchPayloads (bufferedRun K sid alwaysOkBatch alwaysOk1 ops es).1).length
        = (es.length + K - 1) / K ∧
    (∀ b ∈ (batchPayloads (bufferedRun K sid alwaysOkBatch alwaysOk1 ops es).1).dropLast,
        b.length = K) ∧
    (es.length % K ≠ 0 →
      (batchPayloads (bufferedRun K sid alwaysOkBatch alwaysOk1 ops es).1).getLast?.map
          List.length = some (es.length % K)) ∧
    (es.length % K = 0 →
      ∀ b ∈ batchPayloads (bufferedRun K sid alwaysOkBatch alwaysOk1 ops es).1,
        b.length = K) := by
  have hbs : batchPayloads (bufferedRun K sid alwaysOkBatch alwaysOk1 ops es).1
      = chunksOf K (es.map (transformEntry ops)) := by
    rw [bufferedRun_eq_chunks hK, show
      ((chunksOf K (es.map (transformEntry ops))).flatMap (flushTrace alwaysOkBatch sid),
       (chunksOf K (es.map (transformEntry ops))).flatMap (flushErrs alwaysOkBatch alwaysOk1)).1
      = (chunksOf K (es.map (transformEntry ops))).flatMap (flushTrace alwaysOkBatch sid)
      from rfl]
    rw [batchPayloads_flatMap_flushTrace]
    calc (chunksOf K (es.map (transformEntry ops))).map
            (fun c => c.filter (fun e => !e.Filtered))
        = (chunksOf K (es.map (transformEntry ops))).map id :=
          List.map_congr_left (fun c hc => chunks_filter_eq_self hK ops es hops hes c hc)
      _ = chunksOf K (es.map (transformEntry ops)) := List.map_id _
  rw [hbs]
  refine ⟨?_, ?_, ?_, ?_⟩
  · rw [chunksOf_length hK, List.length_map]
  · exact chunksOf_dropLast_length hK _
  · intro hmod
    have hne : es.map (transformEntry ops) ≠ [] := by
      intro hnil
      apply hmod
      have : es.length = 0 := by
        simpa using congrArg List.length hnil
      simp [this]
    obtain ⟨cl, hcl, hlen⟩ := chunksOf_getLast?_length hK (es.map (transformEntry ops)) hne
    rw [List.length_map, if_neg hmod] at hlen
    rw [hcl, Option.map_some', hlen]
  · intro hmod
    exact chunksOf_length_mem_of_mod_eq_zero hK _ (by rwa [List.length_map])

theorem buffered_batch_count_witness :
    (0 < 2 ∧
      (∀ op ∈ ([] : List (Operator Int)), op.isFilter = false) ∧
      (∀ e ∈ ([⟨"1", (1 : Int), false⟩, ⟨"2", 2, false⟩, ⟨"3", 3, false⟩] :
          List (Entry Int)), e.Filtered = false)) ∧
    ((batchPayloads (bufferedRun 2 0 alwaysOkBatch alwaysOk1 []
        [⟨"1", (1 : Int), false⟩, ⟨"2", 2, false⟩, ⟨"3", 3, false⟩]).1).length
        = (3 + 2 - 1) / 2 ∧
      (∀ b ∈ (batchPayloads (bufferedRun 2 0 alwaysOkBatch alwaysOk1 []
          [⟨"1", (1 : Int), false⟩, ⟨"2", 2, false⟩, ⟨"3", 3, false⟩]).1).dropLast,
        b.length = 2) ∧
      ((3 : Nat) % 2 ≠ 0 →
        (batchPayloads (bufferedRun 2 0 alwaysOkBatch alwaysOk1 []
            [⟨"1", (1 : Int), false⟩, ⟨"2", 2, false⟩, ⟨"3", 3, false⟩]).1).getLast?.map
          List.length = some (3 % 2)) ∧
      ((3 : Nat) % 2 = 0 →
        ∀ b ∈ batchPayloads (bufferedRun 2 0 alwaysOkBatch alwaysOk1 []
            [⟨"1", (1 : Int), false⟩, ⟨"2", 2, false⟩, ⟨"3", 3, false⟩]).1,
          b.length = 2)) :=
  ⟨⟨by decide, by decide, by decide⟩,
   by
    have h := buffered_batch_count_and_sizes 2 0 ([] : List (Operator Int))
      [⟨"1", (1 : Int), false⟩, ⟨"2", 2, false⟩, ⟨"3", 3, false⟩]
      (by decide) (by decide) (by decide)
    simpa using h⟩

/-- C3: for a Buffered-Processor stream, entries filtered at flush time
are absent from every `Sink.Batch` payload yet still count toward the
`bufferSize` threshold (the flush-cycle count equals the unfiltered
count ceil(N/K)), and within one flushed batch the surviving entries
appear in arrival order (each payload is an order-preserving sublist of
its flushed chunk). -/
theorem buffered_filtered_skipped_without_changing_flushes (K sid : Nat)
    (bOk : List (Entry α) → Bool) (cOk : String → Bool)
    (ops : List (Operator α)) (es : List (Entry α)) (hK : 0 < K) :
    batchPayloads (bufferedRun K sid bOk cOk ops es).1
        = (chunksOf K (es.map (transformEntry ops))).map
            (fun c => c.filter (fun e => !e.Filtered)) ∧
    (batchPayloads (bufferedRun K sid bOk cOk ops es).1).length
        = (es.length + K - 1) / K ∧
    (∀ b ∈ batchPayloads (bufferedRun K sid bOk cOk ops es).1,
        ∀ e ∈ b, e.Filtered = false) ∧
    List.Forall₂ List.Sublist (batchPayloads (bufferedRun K sid bOk cOk ops es).1)
      (chunksOf K (es.map (transformEntry ops))) := by
  have hbs : batchPayloads (bufferedRun K sid bOk cOk ops es).1
      = (chunksOf K (es.map (transformEntry ops))).map
          (fun c => c.filter (fun e => !e.Filtered)) := by
    rw [bufferedRun_eq_chunks hK, show
      ((chunksOf K (es.map (transformEntry ops))).flatMap (flushTrace bOk sid),
       (chunksOf K (es.map (transformEntry ops))).flatMap (flushErrs bOk cOk)).1
      = (chunksOf K (es.map (transformEntry ops))).flatMap (flushTrace bOk sid)
      from rfl]
    exact batchPayloads_flatMap_flushTrace bOk sid _
  refine ⟨hbs, ?_, ?_, ?_⟩
  · rw [hbs, List.length_map, chunksOf_length hK, List.length_map]
  · rw [hbs]
    intro b hb e he
    rcases List.mem_map.mp hb with ⟨c, hc, rfl⟩
    have := (List.mem_filter.mp he).2
    rwa [Bool.not_eq_true'] at this
  · rw [hbs]
    exact forall₂_map_self _ _ (fun c => List.filter_sublist c)

theorem buffered_filtered_skipped_witness :
    0 < 2 ∧
    (batchPayloads (bufferedRun 2 0 alwaysOkBatch alwaysOk1
          [Operator.filter (fun v => (v : Int) ≤ 1)]
          [⟨"1", (1 : Int), false⟩, ⟨"2", 2, false⟩, ⟨"3", 3, false⟩]).1
        = (chunksOf 2 ([⟨"1", (1 : Int), false⟩, ⟨"2", 2, false⟩, ⟨"3", 3, false⟩].map
            (transformEntry [Operator.filter (fun v => (v : Int) ≤ 1)]))).map
            (fun c => c.filter (fun e => !e.Filtered)) ∧
      (batchPayloads (bufferedRun 2 0 alwaysOkBatch alwaysOk1
          [Operator.filter (fun v => (v : Int) ≤ 1)]
          [⟨"1", (1 : Int), false⟩, ⟨"2", 2, false⟩, ⟨"3", 3, false⟩]).1).length
        = (3 + 2 - 1) / 2 ∧
      (∀ b ∈ batchPayloads (bufferedRun 2 0 alwaysOkBatch alwaysOk1
          [Operator.filter (fun v => (v : Int) ≤ 1)]
          [⟨"1", (1 : Int), false⟩, ⟨"2", 2, false⟩, ⟨"3", 3, false⟩]).1,
        ∀ e ∈ b, e.Filtered = false) ∧
      List.Forall₂ List.Sublist
        (batchPayloads (bufferedRun 2 0 alwaysOkBatch alwaysOk1
          [Operator.filter (fun v => (v : Int) ≤ 1)]
          [⟨"1", (1 : Int), false⟩, ⟨"2", 2, false⟩, ⟨"3", 3, false⟩]).1)
        (chunksOf 2 ([⟨"1", (1 : Int), false⟩, ⟨"2", 2, false⟩, ⟨"3", 3, false⟩].map
          (transformEntry [Operator.filter (fun v => (v : Int) ≤ 1)])))) :=
  ⟨by decide,
   by
    have h := buffered_filtered_skipped_without_changing_flushes 2 0
      alwaysOkBatch alwaysOk1 [Operator.filter (fun v => (v : Int) ≤ 1)]
      [⟨"1", (1 : Int), false⟩, ⟨"2", 2, false⟩, ⟨"3", 3, false⟩] (by decide)
    simpa using h⟩

/-- C4: once an entry's `Filtered` field is true it is never reset by any
processing step of either strategy, and a Map operator applied to an
already-filtered entry leaves the entry untouched (the map function is
never applied). -/
theorem filtered_flag_monotone (singleOk : Nat → Entry α → Bool)
    (commitOk : String → Bool) (op : Operator α) (f : α → α)
    (ops : List (Operator α)) (e : Entry α) (h : e.Filtered = true) :
    (applyOperator singleOk commitOk op e).1.Filtered = true ∧
    applyOperator singleOk commitOk (Operator.map f) e = (e, [], []) ∧
    (transformEntry ops e).Filtered = true := by
  refine ⟨?_, by simp [applyOperator, h], transformEntry_filtered ops e h⟩
  cases op with
  | filter fn => simp [applyOperator, h]
  | map fn => simp [applyOperator, h]
  | sink id => simp [applyOperator, h]

theorem filtered_flag_monotone_witness :
    (⟨"k", (5 : Int), true⟩ : Entry Int).Filtered = true ∧
    ((applyOperator alwaysOk2 alwaysOk1 (Operator.filter (fun _ => false))
        (⟨"k", (5 : Int), true⟩ : Entry Int)).1.Filtered = true ∧
      applyOperator alwaysOk2 alwaysOk1 (Operator.map (fun v => v + 1))
        (⟨"k", (5 : Int), true⟩ : Entry Int) = (⟨"k", (5 : Int), true⟩, [], []) ∧
      (transformEntry [Operator.map (fun v => v + 1)]
        (⟨"k", (5 : Int), true⟩ : Entry Int)).Filtered = true) :=
  ⟨by decide,
   filtered_flag_monotone alwaysOk2 alwaysOk1 (Operator.filter (fun _ => false))
     (fun v => v + 1) [Operator.map (fun v => v + 1)]
     (⟨"k", (5 : Int), true⟩ : Entry Int) (by decide)⟩

/-- C5: the Direct processor commits an entry's key only immediately after
a `Sink.Single` call for that entry that the sink accepted; the Buffered
processor's trace is, chunk by chunk, a `Sink.Batch` call followed (only
on success) by `CommitEntry` for every entry of the flushed collection,
filtered or not, so no commit of a flush precedes that flush's sink
call. -/
theorem commit_after_successful_sink (singleOk : Nat → Entry α → Bool)
    (commitOk : String → Bool) (ops : List (Operator α)) (es : List (Entry α))
    (K sid : Nat) (bOk : List (Entry α) → Bool) (cOk : String → Bool)
    (hK : 0 < K) :
    commitAfterSingleOk singleOk (directRun singleOk commitOk ops es).1 = true ∧
    (bufferedRun K sid bOk cOk ops es).1
      = (chunksOf K (es.map (transformEntry ops))).flatMap (flushTrace bOk sid) :=
  ⟨commitAfterSingleOk_directRun singleOk commitOk ops es,
   by rw [bufferedRun_eq_chunks hK]⟩

theorem commit_after_successful_sink_witness :
    0 < 2 ∧
    (commitAfterSingleOk (fun _ e => e.Key != "2")
        (directRun (fun _ e => e.Key != "2") alwaysOk1 [Operator.sink 0]
          [⟨"1", (1 : Int), false⟩, ⟨"2", 2, false⟩]).1 = true ∧
      (bufferedRun 2 0 alwaysOkBatch alwaysOk1 ([] : List (Operator Int))
          [⟨"1", (1 : Int), false⟩, ⟨"2", 2, false⟩]).1
        = (chunksOf 2 ([⟨"1", (1 : Int), false⟩, ⟨"2", 2, false⟩].map
            (transformEntry []))).flatMap (flushTrace alwaysOkBatch 0)) :=
  ⟨by decide,
   commit_after_successful_sink (fun _ e => e.Key != "2") alwaysOk1
     [Operator.sink 0] [⟨"1", (1 : Int), false⟩, ⟨"2", 2, false⟩]
     2 0 alwaysOkBatch alwaysOk1 (by decide)⟩

/-- C6: `Engine.Add` fails with the duplicate-source error exactly when
some new stream's source name collides with an already-registered one or
with another stream of the same call (leaving the registered set
unchanged, as the error return carries no new state), and otherwise
registers exactly the given streams after the existing ones. -/
theorem engine_add_duplicate_source (regs new : List (StreamModel α))
    (h : (regs.map StreamModel.getSource).Nodup) :
    (¬ ((regs ++ new).map StreamModel.getSource).Nodup →
        engineAdd regs new = Except.error duplicateSourceMsg) ∧
    (((regs ++ new).map StreamModel.getSource).Nodup →
        engineAdd regs new = Except.ok (regs ++ new)) := by
  constructor
  · intro hndup
    cases hcond : (new.any (fun s =>
        (regs.map StreamModel.getSource).contains s.getSource) || hasDupName new)
    · exact absurd ((engineAdd_check_iff regs new h).mp hcond) hndup
    · simp only [engineAdd]
      rw [hcond]
      rfl
  · intro hnodup
    have hcond := (engineAdd_check_iff regs new h).mpr hnodup
    simp only [engineAdd]
    rw [hcond]
    rfl

theorem engine_add_duplicate_source_witness :
    ((([⟨"a", []⟩] : List (StreamModel Int)).map StreamModel.getSource).Nodup ∧
      ¬ ((([⟨"a", []⟩] : List (StreamModel Int))
            ++ ([⟨"a", []⟩] : List (StreamModel Int))).map
          StreamModel.getSource).Nodup) ∧
    engineAdd ([⟨"a", []⟩] : List (StreamModel Int)) [⟨"a", []⟩]
      = Except.error duplicateSourceMsg :=
  ⟨⟨by decide, by decide⟩,
   (engine_add_duplicate_source ([⟨"a", []⟩] : List (StreamModel Int))
      [⟨"a", []⟩] (by decide)).1 (by decide)⟩

/-- C7: processing errors are surfaced on the error channel component of
the run's result and are not fatal: the Direct run over a concatenation is
the concatenation of the runs (so a failing entry never halts the loop),
and the Buffered run reports exactly each flush's errors, flush after
flush, while its run function returns normally; the only synchronous error
in the model is `engineAdd`'s `Except.error`. -/
theorem errors_surfaced_async_nonfatal (s : Nat → Entry α → Bool)
    (c : String → Bool) (ops : List (Operator α)) (es₁ es₂ : List (Entry α))
    (K sid : Nat) (bOk : List (Entry α) → Bool) (cOk : String → Bool)
    (es : List (Entry α)) (hK : 0 < K) :
    directRun s c ops (es₁ ++ es₂)
      = ((directRun s c ops es₁).1 ++ (directRun s c ops es₂).1,
         (directRun s c ops es₁).2 ++ (directRun s c ops es₂).2) ∧
    (bufferedRun K sid bOk cOk ops es).2
      = (chunksOf K (es.map (transformEntry ops))).flatMap (flushErrs bOk cOk) :=
  ⟨directRun_append s c ops es₁ es₂, by rw [bufferedRun_eq_chunks hK]⟩

theorem errors_surfaced_async_witness :
    0 < 1 ∧
    (directRun (fun _ _ => false) alwaysOk1 [Operator.sink 0]
        ([⟨"1", (1 : Int), false⟩] ++ [⟨"2", 2, false⟩])
      = ((directRun (fun _ _ => false) alwaysOk1 [Operator.sink 0]
            [⟨"1", (1 : Int), false⟩]).1
          ++ (directRun (fun _ _ => false) alwaysOk1 [Operator.sink 0]
            [⟨"2", (2 : Int), false⟩]).1,
         (directRun (fun _ _ => false) alwaysOk1 [Operator.sink 0]
            [⟨"1", (1 : Int), false⟩]).2
          ++ (directRun (fun _ _ => false) alwaysOk1 [Operator.sink 0]
            [⟨"2", (2 : Int), false⟩]).2) ∧
      (bufferedRun 1 0 (fun _ => false) alwaysOk1 ([] : List (Operator Int))
          [⟨"1", (1 : Int), false⟩]).2
        = (chunksOf 1 ([⟨"1", (1 : Int), false⟩].map (transformEntry []))).flatMap
            (flushErrs (fun _ => false) alwaysOk1)) :=
  ⟨by decide,
   errors_surfaced_async_nonfatal (fun _ _ => false) alwaysOk1 [Operator.sink 0]
     [⟨"1", (1 : Int), false⟩] [⟨"2", (2 : Int), false⟩]
     1 0 (fun _ => false) alwaysOk1 [⟨"1", (1 : Int), false⟩] (by decide)⟩

/-- C8: the Stopped engine state is terminal: `Stop()` moves Running to
Stopped, and from Stopped no action (no entry delivery to any sink, no
source start) is enabled, so the only valid continuation is the empty
one. -/
theorem engine_stopped_terminal (acts : List EngAction) (s : EngState)
    (h : engRun EngState.stopped acts = some s) :
    s = EngState.stopped ∧ acts = [] ∧
    engStep EngState.running EngAction.stop = some EngState.stopped := by
  cases acts with
  | nil =>
      simp only [engRun, Option.some.injEq] at h
      exact ⟨h.symm, rfl, rfl⟩
  | cons a rest =>
      cases a <;> simp [engRun, engStep] at h

theorem engine_stopped_terminal_witness :
    engRun EngState.stopped [] = some EngState.stopped ∧
    (EngState.stopped = EngState.stopped ∧ ([] : List EngAction) = [] ∧
      engStep EngState.running EngAction.stop = some EngState.stopped) :=
  ⟨rfl, engine_stopped_terminal [] EngState.stopped rfl⟩

/-- C9: each builder call (`Filter`, `Map`, `Sink`) appends exactly one
operator to the stream's operator sequence while keeping the same bound
source, and any sequence of chained builder calls yields `GetHandlers`
equal to exactly the operators added, in order, with `GetSource` still the
one bound source. -/
theorem stream_builder_appends_in_order (s : StreamModel α) (f : α → Bool)
    (m : α → α) (sid : Nat) (cs : List (BuildCall α)) :
    ((s.Filter f).getHandlers = s.getHandlers ++ [Operator.filter f] ∧
      (s.Filter f).getSource = s.getSource) ∧
    ((s.Map m).getHandlers = s.getHandlers ++ [Operator.map m] ∧
      (s.Map m).getSource = s.getSource) ∧
    ((s.Sink sid).getHandlers = s.getHandlers ++ [Operator.sink sid] ∧
      (s.Sink sid).getSource = s.getSource) ∧
    (applyCalls s cs).getHandlers = s.getHandlers ++ cs.map BuildCall.toOperator ∧
    (applyCalls s cs).getSource = s.getSource :=
  ⟨⟨rfl, rfl⟩, ⟨rfl, rfl⟩, ⟨rfl, rfl⟩, (applyCalls_spec s cs).1, (applyCalls_spec s cs).2⟩

/-- C10: a Map operator changes only the entry's value, never its key or
its `Filtered` flag; a Filter operator changes only the `Filtered` flag,
never key or value, and its decision depends only on the value (two
non-filtered entries with equal values get the same decision); only the
processor ever writes the `Filtered` flag. -/
theorem operators_touch_only_value (singleOk : Nat → Entry α → Bool)
    (commitOk : String → Bool) (f : α → α) (fn : α → Bool) (e e₁ e₂ : Entry α)
    (hv : e₁.Value = e₂.Value) (h₁ : e₁.Filtered = false)
    (h₂ : e₂.Filtered = false) :
    (applyOperator singleOk commitOk (Operator.map f) e).1.Key = e.Key ∧
    (applyOperator singleOk commitOk (Operator.map f) e).1.Filtered = e.Filtered ∧
    (applyOperator singleOk commitOk (Operator.filter fn) e).1.Key = e.Key ∧
    (applyOperator singleOk commitOk (Operator.filter fn) e).1.Value = e.Value ∧
    (applyOperator singleOk commitOk (Operator.filter fn) e₁).1.Filtered
      = (applyOperator singleOk commitOk (Operator.filter fn) e₂).1.Filtered := by
  refine ⟨?_, ?_, ?_, ?_, ?_⟩
  · by_cases hf : e.Filtered <;> simp [applyOperator, hf]
  · by_cases hf : e.Filtered <;> simp [applyOperator, hf]
  · by_cases hf : e.Filtered
    · simp [applyOperator, hf]
    · by_cases hfn : fn e.Value <;> simp [applyOperator, hf, hfn]
  · by_cases hf : e.Filtered
    · simp [applyOperator, hf]
    · by_cases hfn : fn e.Value <;> simp [applyOperator, hf, hfn]
  · simp only [applyOperator, h₁, h₂, Bool.false_eq_true, if_false, hv]
    by_cases hfn : fn e₂.Value <;> simp [hfn, h₁, h₂]

theorem operators_touch_only_value_witness :
    ((⟨"a", (7 : Int), false⟩ : Entry Int).Value
        = (⟨"b", (7 : Int), false⟩ : Entry Int).Value ∧
      (⟨"a", (7 : Int), false⟩ : Entry Int).Filtered = false ∧
      (⟨"b", (7 : Int), false⟩ : Entry Int).Filtered = false) ∧
    ((applyOperator alwaysOk2 alwaysOk1 (Operator.map (fun v => v * 2))
        (⟨"k", (3 : Int), false⟩ : Entry Int)).1.Key = "k" ∧
      (applyOperator alwaysOk2 alwaysOk1 (Operator.map (fun v => v * 2))
        (⟨"k", (3 : Int), false⟩ : Entry Int)).1.Filtered
        = (⟨"k", (3 : Int), false⟩ : Entry Int).Filtered ∧
      (applyOperator alwaysOk2 alwaysOk1 (Operator.filter (fun v => v ≤ 5))
        (⟨"k", (3 : Int), false⟩ : Entry Int)).1.Key = "k" ∧
      (applyOperator alwaysOk2 alwaysOk1 (Operator.filter (fun v => v ≤ 5))
        (⟨"k", (3 : Int), false⟩ : Entry Int)).1.Value
        = (⟨"k", (3 : Int), false⟩ : Entry Int).Value ∧
      (applyOperator alwaysOk2 alwaysOk1 (Operator.filter (fun v => v ≤ 5))
        (⟨"a", (7 : Int), false⟩ : Entry Int)).1.Filtered
        = (applyOperator alwaysOk2 alwaysOk1 (Operator.filter (fun v => v ≤ 5))
          (⟨"b", (7 : Int), false⟩ : Entry Int)).1.Filtered) :=
  ⟨⟨by decide, by decide, by decide⟩,
   operators_touch_only_value alwaysOk2 alwaysOk1 (fun v => v * 2)
     (fun v => v ≤ 5) (⟨"k", (3 : Int), false⟩ : Entry Int)
     (⟨"a", (7 : Int), false⟩ : Entry Int) (⟨"b", (7 : Int), false⟩ : Entry Int)
     (by decide) (by decide) (by decide)⟩

end GoStreams
